import Mathlib

/-!
Verification of the Windows basic IO layer of the Poly/ML runtime
(`libpolyml/winbasicio.cpp`), as a shallow embedding in Lean 4.

Bytes are modelled as natural numbers (the carriage-return byte is 13).
The asynchronous buffered input engine `WinInStream` is embedded with its
exact fields: `buffer` holds the bytes written by the most recent raw
`ReadFile` request (its length is that request's transfer count),
`currentInBuffer`/`currentPtr` are the `filled`/`cursor` counters,
`endOfStream` the sticky end flag, `overlappedPos` the absolute offset kept
in the OVERLAPPED structure, and `content` models the bytes of the
underlying OS file.  Raw reads on a disk file complete synchronously, so
`GetOverlappedResult` is modelled by a boolean `probeDone` flag: when
`true` the probe reports success with the transfer count of the most
recent request (which is also what a second probe of an
already-completed request reports, since the manual-reset event stays
signalled); when `false` it reports ERROR_IO_INCOMPLETE.  The unbounded
retry loop of `isAvailable` is given explicit fuel; a `none` result means
the loop is still running after that many iterations.
-/

/-- The state of `WinInStream`, the asynchronous buffered input engine. -/
structure WinInStream where
  content : List Nat
  buffer : List Nat
  currentInBuffer : Nat
  currentPtr : Nat
  overlappedPos : Nat
  buffSize : Nat
  endOfStream : Bool
  isText : Bool
deriving DecidableEq

/-- Model of `WinInStream::beginReading`: issue a raw read at
`overlappedPos`.  `ReadFile` at or past the end of the file fails at once
with ERROR_HANDLE_EOF, which sets `endOfStream`; otherwise the request
reads up to `buffSize` bytes starting at `overlappedPos` into the buffer
(ERROR_IO_PENDING and immediate success both leave the counters alone). -/
def beginReading (s : WinInStream) : WinInStream :=
  if s.content.length ≤ s.overlappedPos then { s with endOfStream := true }
  else { s with buffer := (s.content.drop s.overlappedPos).take s.buffSize }

/-- Model of `WinInStream::openEntry` on a file whose bytes are `content`:
the constructor zeroes the counters, sets `buffSize = 4096`, and
`openEntry` immediately issues the first raw read. -/
def openState (content : List Nat) (isT : Bool) : WinInStream :=
  beginReading
    { content := content, buffer := [], currentInBuffer := 0, currentPtr := 0,
      overlappedPos := 0, buffSize := 4096, endOfStream := false, isText := isT }

/-- The length of the leading run of carriage-return bytes, as skipped by
the `while (isText && currentPtr < currentInBuffer && buffer[currentPtr] == CR)`
loops of `isAvailable` and `readStream`. -/
def skipCRs : List Nat → Nat
  | [] => 0
  | b :: rest => if b = 13 then skipCRs rest + 1 else 0

/-- The copy loop of `WinInStream::readStream`: while bytes remain and the
budget is not exhausted, take the next byte; in text mode a carriage
return is consumed without being emitted and without spending budget.
Returns the emitted bytes and the number of bytes consumed. -/
def copyLoop (isT : Bool) : List Nat → Nat → List Nat × Nat
  | [], _ => ([], 0)
  | b :: rest, budget =>
    if budget = 0 then ([], 0)
    else if isT ∧ b = 13 then
      let r := copyLoop isT rest budget
      (r.1, r.2 + 1)
    else
      let r := copyLoop isT rest (budget - 1)
      (b :: r.1, r.2 + 1)

/-- Model of `WinInStream::readStream`: at end of stream return no bytes;
otherwise copy from the unread part of the buffer, skip any following
carriage returns in text mode, and if the buffer is now exhausted reset
the counters and issue the next raw read. -/
def readStream (len : Nat) (s : WinInStream) : List Nat × WinInStream :=
  if s.endOfStream then ([], s)
  else
    let unread := (s.buffer.take s.currentInBuffer).drop s.currentPtr
    let r := copyLoop s.isText unread len
    let ptr1 := s.currentPtr + r.2
    let sk := if s.isText then skipCRs ((s.buffer.take s.currentInBuffer).drop ptr1) else 0
    let ptr2 := ptr1 + sk
    if s.currentInBuffer = ptr2 then
      (r.1, beginReading { s with currentInBuffer := 0, currentPtr := 0 })
    else
      (r.1, { s with currentPtr := ptr2 })

/-- Model of `WinInStream::isAvailable`, with explicit fuel for its
`while (1)` retry loop.  The guard is the code's exact (reversed)
comparison `currentInBuffer < currentPtr || endOfStream`.  `probeDone`
models `GetOverlappedResult`: `false` is ERROR_IO_INCOMPLETE; `true` is
success, reporting the transfer count of the most recent raw read (the
length of `buffer`), after which `overlappedPos` is advanced, the fill
counter set, and in text mode leading carriage returns skipped; if
nothing unread remains a new raw read is issued and the loop repeats. -/
def isAvailN (probeDone : Bool) : Nat → WinInStream → Option (Bool × WinInStream)
  | 0, _ => none
  | fuel + 1, s =>
    if s.currentInBuffer < s.currentPtr ∨ s.endOfStream = true then some (true, s)
    else if probeDone = false then some (false, s)
    else
      let bytesRead := s.buffer.length
      let sA : WinInStream :=
        { s with overlappedPos := s.overlappedPos + bytesRead, currentInBuffer := bytesRead }
      let sk := if sA.isText then skipCRs ((sA.buffer.take sA.currentInBuffer).drop sA.currentPtr)
                else 0
      let sB : WinInStream := { sA with currentPtr := sA.currentPtr + sk }
      if sB.currentPtr < sB.currentInBuffer then some (true, sB)
      else isAvailN probeDone fuel (beginReading sB)

/-- Model of `WinInStream::getPos`: `overlappedPos - currentInBuffer + currentPtr`
(only reached on disk files; the non-file branch raises and is outside
this state model). -/
def getPos (s : WinInStream) : Nat :=
  s.overlappedPos - s.currentInBuffer + s.currentPtr

/-- Model of `WinInStream::setPos`: after any pending raw read has
completed, the OVERLAPPED offset is set to `pos`, the buffered data is
discarded, the end flag cleared, and a raw read is issued at the new
offset. -/
def setPos (pos : Nat) (s : WinInStream) : WinInStream :=
  beginReading
    { s with overlappedPos := pos, currentInBuffer := 0, currentPtr := 0, endOfStream := false }

/-- The read path of `readArray`/`readString`: `waitUntilAvailable` (which
on a synchronously-completing device is a single `isAvailable` call that
returns `true`) followed by `readStream`. -/
def waitThenRead (fuel len : Nat) (s : WinInStream) : Option (List Nat × WinInStream) :=
  match isAvailN true fuel s with
  | some (true, s1) => some (readStream len s1)
  | _ => none

/-- Run a sequence of read requests through the engine, concatenating the
returned byte strings. -/
def runReads (fuel : Nat) : WinInStream → List Nat → Option (List Nat)
  | _, [] => some []
  | s, n :: rest =>
    match waitThenRead fuel n s with
    | none => none
    | some (out, s1) =>
      match runReads fuel s1 rest with
      | none => none
      | some tail => some (out ++ tail)

/-- Model of `readString`: the requested length is truncated to 102400
bytes before reading (`if (length > 102400) length = 102400;`). -/
def readStringM (fuel n : Nat) (s : WinInStream) : Option (List Nat) :=
  let len := if 102400 < n then 102400 else n
  match waitThenRead fuel len s with
  | some (out, _) => some out
  | none => none

/-- The byte content a reader observes: in text mode every carriage
return byte is removed, in binary mode the bytes are unchanged. -/
def normalizeBytes (isT : Bool) (l : List Nat) : List Nat :=
  if isT then l.filter (fun b => decide (b ≠ 13)) else l

/-- Model of `pollDescriptors`.  `env t` gives the per-stream results of
`strm->poll(bits)` during the iteration after `t` scheduler yields;
`now t` is the system time then, `deadline` the absolute timeout.  The
`results` vector is allocated and zeroed but — exactly as in the code —
never written, so only its length and the `haveResult` flag depend on the
polls.  `blockType` 0 waits until the deadline, 1 waits forever, 2 is a
plain poll.  The result pairs the returned vector with the number of
yields taken; `none` means the loop is still running after `fuel`
iterations. -/
def pollDescriptors (env : Nat → List Nat) (now : Nat → Nat) (deadline blockType : Nat) :
    Nat → Nat → Option (List Nat × Nat)
  | 0, _ => none
  | fuel + 1, t =>
    let polls := env t
    let results : List Nat := List.replicate polls.length 0
    let haveResult := polls.any (fun r => decide (r ≠ 0))
    if haveResult then some (results, t)
    else if blockType = 0 then
      if deadline ≤ now t then some (results, t)
      else pollDescriptors env now deadline blockType fuel (t + 1)
    else if blockType = 1 then pollDescriptors env now deadline blockType fuel (t + 1)
    else some (results, t)

/-- One directory entry as reported by FindFirstFile/FindNextFile. -/
structure DirEntry where
  name : String
  isDirectory : Bool
deriving DecidableEq

/-- The state of a directory stream (`WinDirData`): the staged entry
`lastFind`, the entries the OS will report next, and the
`fFindSucceeded` flag (false once the search is exhausted). -/
structure WinDirData where
  lastFind : DirEntry
  pending : List DirEntry
  fFindSucceeded : Bool
deriving DecidableEq

/-- The filter of `readDirectory`: directory entries named "." or ".."
are never surfaced. -/
def isPseudo (e : DirEntry) : Bool :=
  e.isDirectory && (e.name == "." || e.name == "..")

/-- The `while (result == NULL)` loop of `readDirectory`: stage the
current entry unless it is a pseudo entry, then advance with
FindNextFile; when advancing fails with ERROR_NO_MORE_FILES the flag is
cleared and the staged name (or the empty sentinel) returned. -/
def readDirLoop (cur : DirEntry) : List DirEntry → String × WinDirData
  | [] =>
    if isPseudo cur then
      ("", { lastFind := cur, pending := [], fFindSucceeded := false })
    else
      (cur.name, { lastFind := cur, pending := [], fFindSucceeded := false })
  | e :: rest =>
    if isPseudo cur then readDirLoop e rest
    else (cur.name, { lastFind := e, pending := rest, fFindSucceeded := true })

/-- Model of `readDirectory`: if the previous advance already failed the
empty sentinel is returned at once; otherwise the staged-and-advance
loop runs. -/
def readDirectory (d : WinDirData) : String × WinDirData :=
  if d.fFindSucceeded = false then ("", d)
  else readDirLoop d.lastFind d.pending

/-- The classification of each case of the `IO_dispatch_c` switch.  Only
the shape of each arm matters here: which codes are known, and whether an
arm raises through `raise_syscall` (the SysErr channel carrying an OS
error code, used for unsupported operations such as case 59) or through
`raise_exception_string(EXC_Fail, ...)` (the default arm). -/
inductive DispatchAction where
  | stdStream (which : Nat)
  | openFile (forWrite isAppend isBinary : Bool)
  | closeStream
  | readIntoArray (text : Bool)
  | readAsString (text : Bool)
  | writeFromArray (text : Bool)
  | bufferSizeHint (n : Nat)
  | testInput
  | availBytes
  | getPosOp
  | setPosOp
  | endPosOp
  | kindOp
  | pollTestOp
  | pollOp (blockType : Nat)
  | waitInput
  | testOutput
  | waitOutput
  | fileDescrOp
  | dirOpen
  | dirRead
  | dirClose
  | dirRewind
  | getCwd
  | mkDirOp
  | rmDirOp
  | isDirOp
  | isLinkOp
  | raiseSyscall (msg : String) (err : Nat)
  | fullPathOp
  | modTimeOp
  | fileSizeOp
  | setTimeOp
  | deleteOp
  | renameOp
  | accessOp
  | tempNameOp
  | fileIdOp
  | hashOp
  | raiseFail (msg : String)
deriving DecidableEq

/-- The `IO_dispatch_c` switch, arm by arm. -/
def dispatch (c : Nat) : DispatchAction :=
  if c = 0 then .stdStream 0
  else if c = 1 then .stdStream 1
  else if c = 2 then .stdStream 2
  else if c = 3 then .openFile false false false
  else if c = 4 then .openFile false false true
  else if c = 5 then .openFile true false false
  else if c = 6 then .openFile true false true
  else if c = 13 then .openFile true true false
  else if c = 14 then .openFile true true true
  else if c = 7 then .closeStream
  else if c = 8 then .readIntoArray true
  else if c = 9 then .readIntoArray false
  else if c = 10 then .readAsString true
  else if c = 11 then .writeFromArray true
  else if c = 12 then .writeFromArray false
  else if c = 15 then .bufferSizeHint 4096
  else if c = 16 then .testInput
  else if c = 17 then .availBytes
  else if c = 18 then .getPosOp
  else if c = 19 then .setPosOp
  else if c = 20 then .endPosOp
  else if c = 21 then .kindOp
  else if c = 22 then .pollTestOp
  else if c = 23 then .pollOp 1
  else if c = 24 then .pollOp 0
  else if c = 25 then .pollOp 2
  else if c = 26 then .readAsString false
  else if c = 27 then .waitInput
  else if c = 28 then .testOutput
  else if c = 29 then .waitOutput
  else if c = 30 then .fileDescrOp
  else if c = 50 then .dirOpen
  else if c = 51 then .dirRead
  else if c = 52 then .dirClose
  else if c = 53 then .dirRewind
  else if c = 54 then .getCwd
  else if c = 55 then .mkDirOp
  else if c = 56 then .rmDirOp
  else if c = 57 then .isDirOp
  else if c = 58 then .isLinkOp
  else if c = 59 then .raiseSyscall "Symbolic links are not implemented" 0
  else if c = 60 then .fullPathOp
  else if c = 61 then .modTimeOp
  else if c = 62 then .fileSizeOp
  else if c = 63 then .setTimeOp
  else if c = 64 then .deleteOp
  else if c = 65 then .renameOp
  else if c = 66 then .accessOp
  else if c = 67 then .tempNameOp
  else if c = 68 then .fileIdOp
  else if c = 69 then .hashOp
  else .raiseFail ("Unknown io function: " ++ toString c)

/-- The codes the switch handles: 0..30 and 50..69. -/
def knownCode (c : Nat) : Bool :=
  decide (c ≤ 30 ∨ (50 ≤ c ∧ c ≤ 69))

/-- Does a dispatch arm raise through the syscall-error channel (the
channel `unimplemented`/case 59 use for unsupported operations)? -/
def isUnsupportedRaise : DispatchAction → Bool
  | .raiseSyscall _ _ => true
  | _ => false

/-- Does a dispatch arm raise the EXC_Fail exception? -/
def isFailRaise : DispatchAction → Bool
  | .raiseFail _ => true
  | _ => false

/-- Model of case 7 of `IO_dispatch_c` (generic close).  Streams are
identified by their pointer, modelled as a natural number; `none` models
an already-nulled slot.  The result pairs the slot after the call with
whether `closeEntry` + `delete` ran.  The code guards with
`stream != 0 && stream != standardInput && stream != standardOutput && stream != standardError`. -/
def closeOp (stdIn stdOut stdErr : Nat) (slot : Option Nat) : Option Nat × Bool :=
  match slot with
  | none => (none, false)
  | some s =>
    if s ≠ stdIn ∧ s ≠ stdOut ∧ s ≠ stdErr then (none, true)
    else (some s, false)

/-- An engine state holding four unread buffered bytes "ABCD", with the
raw read that delivered them already completed (`overlappedPos` = 4). -/
def availBugState : WinInStream :=
  { content := [65, 66, 67, 68], buffer := [65, 66, 67, 68], currentInBuffer := 4,
    currentPtr := 0, overlappedPos := 4, buffSize := 4096, endOfStream := false,
    isText := false }

/-- Directory state staging the "." pseudo entry followed by a real
file "a". -/
def dirExample : WinDirData :=
  { lastFind := { name := ".", isDirectory := true },
    pending := [{ name := "a", isDirectory := false }],
    fFindSucceeded := true }

/-- Directory state staging a real file "b" with no further OS matches. -/
def dirExample2 : WinDirData :=
  { lastFind := { name := "b", isDirectory := false },
    pending := [],
    fFindSucceeded := true }

/-- The shapes in which a call of `isAvailable` can return control. -/
def returnShape (probeDone : Bool) (s : WinInStream) : Prop :=
  (s.currentInBuffer < s.currentPtr ∨ s.endOfStream = true) ∨
  (probeDone = false ∧ s.currentPtr ≤ s.currentInBuffer ∧ s.endOfStream = false) ∨
  (probeDone = true ∧ s.currentPtr < s.currentInBuffer ∧
    s.currentInBuffer = s.buffer.length ∧ s.endOfStream = false ∧
    (s.isText = true → skipCRs ((s.buffer.take s.currentInBuffer).drop s.currentPtr) = 0))

/-- An engine already at end of stream. -/
def eosState : WinInStream :=
  { content := [], buffer := [], currentInBuffer := 0, currentPtr := 0,
    overlappedPos := 0, buffSize := 4096, endOfStream := true, isText := false }

/-- States reachable by the availability loop after `setPos p`: either at
end of stream, or holding (in `buffer`) the file bytes from some offset
`q ≥ p` with either nothing consumed yet and the same normalized tail as
from `p`, or a cursor saturated past the whole buffer. -/
def SafeSt (content : List Nat) (it : Bool) (bs p : Nat) (s : WinInStream) : Prop :=
  s.content = content ∧ s.isText = it ∧ s.buffSize = bs ∧
  (s.endOfStream = true ∨
    ∃ q, p ≤ q ∧ q ≤ s.overlappedPos ∧ s.buffer = (content.drop q).take bs ∧
      ((s.currentPtr = 0 ∧
         normalizeBytes it (content.drop q) = normalizeBytes it (content.drop p)) ∨
       s.buffer.length ≤ s.currentPtr))

/-- The engine states seen between reads of a file that fits in one
buffer fill: the whole content is buffered, `k` bytes are consumed, the
position is at or past the end of the content, and in text mode the
cursor does not rest on a carriage return. -/
def ActiveSt (c : List Nat) (it : Bool) (k : Nat) (s : WinInStream) : Prop :=
  s.content = c ∧ s.isText = it ∧ s.buffer = c ∧
  s.currentInBuffer = c.length ∧ s.currentPtr = k ∧
  s.endOfStream = false ∧ c.length ≤ s.overlappedPos ∧
  k < c.length ∧ (it = true → skipCRs (c.drop k) = 0)

/-- The engine has observed end of stream. -/
def DoneSt (c : List Nat) (it : Bool) (s : WinInStream) : Prop :=
  s.content = c ∧ s.isText = it ∧ s.endOfStream = true

/-- A state from which the availability wait (with any fuel of at least
two iterations) lands in an active state with `k` consumed, or at end of
stream once everything (`k ≥ length`) is consumed. -/
def PreSt (c : List Nat) (it : Bool) (k : Nat) (s : WinInStream) : Prop :=
  ∃ s1, (∀ m, isAvailN true (m + 2) s = some (true, s1)) ∧
    (ActiveSt c it k s1 ∨ (DoneSt c it s1 ∧ c.length ≤ k))

/-! Basic facts about the copy loop, shared by several results below. -/

theorem copyLoop_fst_length_le (isT : Bool) (l : List Nat) : ∀ n, (copyLoop isT l n).1.length ≤ n := by
  induction l with
  | nil => intro n; simp [copyLoop]
  | cons b rest ih =>
    intro n
    by_cases hn : n = 0
    · simp [copyLoop, hn]
    · by_cases hb : isT ∧ b = 13
      · simpa [copyLoop, hn, hb] using ih n
      · have h1 := ih (n - 1)
        simp only [copyLoop, if_neg hn, if_neg hb, List.length_cons]
        omega

theorem readStream_fst (n : Nat) (s : WinInStream) (hf : s.endOfStream = false) :
    (readStream n s).1 =
      (copyLoop s.isText ((s.buffer.take s.currentInBuffer).drop s.currentPtr) n).1 := by
  simp only [readStream, hf, Bool.false_eq_true, if_false, apply_ite Prod.fst, ite_self]

theorem readStream_fst_length_le (n : Nat) (s : WinInStream) :
    (readStream n s).1.length ≤ n := by
  by_cases he : s.endOfStream = true
  · simp [readStream, he]
  · have hf : s.endOfStream = false := by revert he; cases s.endOfStream <;> simp
    rw [readStream_fst n s hf]
    exact copyLoop_fst_length_le s.isText _ n

/-- C1.  The poll loop computes each stream's poll result only to set the
`haveResult` flag; the `results` vector it returns stays all-zero.  With
3 streams of which only stream #2 reports READ (bit 1) under NONBLOCK,
the call returns immediately (0 yields) — but with `[0, 0, 0]`, not the
claimed `[0, READ, 0]`. -/
theorem pollDescriptors_ready_bits_dropped :
    pollDescriptors (fun _ => [0, 1, 0]) (fun _ => 0) 0 2 1 0 = some ([0, 0, 0], 0) := by
  rfl

/-- C2.  In a state with 4 unread buffered bytes (`cursor = 0 < 4 = filled`,
not at end), `isAvailable` does not return true immediately: its guard
tests the reversed comparison `currentInBuffer < currentPtr`, so it
probes the OS.  If the probe reports "incomplete" it returns false; if
the probe reports the (already observed) completion it returns true but
advances `overlappedPos` from 4 to 8, moving the logical position
(`getPos`) from 0 to 4. -/
theorem isAvailable_probes_despite_buffered :
    isAvailN false 1 availBugState = some (false, availBugState) ∧
    isAvailN true 1 availBugState =
      some (true, { availBugState with overlappedPos := 8 }) ∧
    getPos availBugState = 0 ∧
    getPos { availBugState with overlappedPos := 8 } = 4 := by
  decide

/-- C3 counterexample.  A poll of the empty request vector under
BLOCK-FOREVER does not return immediately: the first iteration finds no
result, yields, and restarts (still running after the first iteration,
and equally after a second). -/
theorem pollDescriptors_empty_block_forever_stuck :
    pollDescriptors (fun _ => []) (fun _ => 0) 0 1 1 0 = none ∧
    pollDescriptors (fun _ => []) (fun _ => 0) 0 1 2 0 = none := by
  constructor <;> rfl

/-- C3 (amended).  With zero streams no result is ever reported, so under
BLOCK-FOREVER the poll yields one scheduling turn per iteration and
restarts, forever: it never returns, whatever the fuel.  Only a NONBLOCK
poll of the empty vector returns the empty result vector immediately,
without yielding. -/
theorem pollDescriptors_empty_forever_diverges (now : Nat → Nat) (deadline fuel t : Nat) :
    pollDescriptors (fun _ => []) now deadline 1 fuel t = none ∧
    pollDescriptors (fun _ => []) now deadline 2 (fuel + 1) t = some ([], t) := by
  constructor
  · induction fuel generalizing t with
    | zero => rfl
    | succ m ih => simpa [pollDescriptors] using ih (t + 1)
  · simp [pollDescriptors]

/-- C7 counterexample.  An unknown operation code (31 is not in the
switch) raises through `raise_exception_string(EXC_Fail, ...)`, not
through the `raise_syscall` channel that unsupported operations (such as
case 59) use. -/
theorem dispatch_unknown_not_syscall :
    isUnsupportedRaise (dispatch 31) = false ∧ isFailRaise (dispatch 31) = true := by
  decide

/-- C7 (amended).  Every operation code outside the known set 0..30 and
50..69 reaches the default arm, which raises the EXC_Fail exception with
the message "Unknown io function: n"; no stream is touched before the
raise. -/
theorem dispatch_unknown_raises_fail (c : Nat) (h : knownCode c = false) :
    dispatch c = DispatchAction.raiseFail ("Unknown io function: " ++ toString c) := by
  have h1 : ¬(c ≤ 30 ∨ (50 ≤ c ∧ c ≤ 69)) := by simpa [knownCode] using h
  push_neg at h1
  obtain ⟨h2, h3⟩ := h1
  have h4 : (30 < c ∧ c < 50) ∨ 69 < c := by
    rcases Nat.lt_or_ge c 50 with h5 | h5
    · exact Or.inl ⟨h2, h5⟩
    · exact Or.inr (h3 h5)
  rcases h4 with ⟨h5, h6⟩ | h5 <;>
    · unfold dispatch
      repeat rw [if_neg (by omega)]

/-- C7 witness: code 31 is unknown and raises the Fail exception. -/
theorem dispatch_unknown_raises_fail_witness :
    knownCode 31 = false ∧
    dispatch 31 = DispatchAction.raiseFail "Unknown io function: 31" := by
  refine ⟨by decide, ?_⟩
  have h := dispatch_unknown_raises_fail 31 (by decide)
  exact h

/-- C9.  The generic close (case 7) releases a stream only when it is
none of the three standard-stream identities: on standard input, output
or error it leaves the slot untouched (no `closeEntry`, no `delete`), so
the stream remains usable; on any other stream it closes, deletes and
nulls the slot. -/
theorem close_std_streams_noop (stdIn stdOut stdErr s : Nat) :
    ((s = stdIn ∨ s = stdOut ∨ s = stdErr) →
      closeOp stdIn stdOut stdErr (some s) = (some s, false)) ∧
    (s ≠ stdIn → s ≠ stdOut → s ≠ stdErr →
      closeOp stdIn stdOut stdErr (some s) = (none, true)) := by
  constructor
  · intro h
    have hneg : ¬(s ≠ stdIn ∧ s ≠ stdOut ∧ s ≠ stdErr) := by tauto
    simp only [closeOp]
    rw [if_neg hneg]
  · intro h1 h2 h3
    simp only [closeOp]
    rw [if_pos ⟨h1, h2, h3⟩]

/-- C9 witness: closing standard output (identity 11 among {10,11,12})
is a no-op; closing an unrelated stream releases it. -/
theorem close_std_streams_noop_witness :
    closeOp 10 11 12 (some 11) = (some 11, false) ∧
    closeOp 10 11 12 (some 5) = (none, true) := by
  exact ⟨(close_std_streams_noop 10 11 12 11).1 (Or.inr (Or.inl rfl)),
         (close_std_streams_noop 10 11 12 5).2 (by decide) (by decide) (by decide)⟩

/-- C10.  `readString` truncates the requested length to 102400 before
reading, so whenever the call returns a byte string its length is at
most 102400 and at most the requested length. -/
theorem readString_limit (fuel n : Nat) (s : WinInStream) (out : List Nat)
    (h : readStringM fuel n s = some out) : out.length ≤ 102400 ∧ out.length ≤ n := by
  simp only [readStringM] at h
  have hA : (if 102400 < n then 102400 else n) ≤ 102400 := by
    split <;> omega
  have hB : (if 102400 < n then 102400 else n) ≤ n := by
    split <;> omega
  rcases hw : waitThenRead fuel (if 102400 < n then 102400 else n) s with _ | ⟨o, s1⟩
  · rw [hw] at h; cases h
  · rw [hw] at h
    have ho : o = out := by injection h
    unfold waitThenRead at hw
    rcases hv : isAvailN true fuel s with _ | ⟨b, s2⟩
    · rw [hv] at hw; cases hw
    · rw [hv] at hw
      cases b
      · cases hw
      · have h2 : readStream (if 102400 < n then 102400 else n) s2 = (o, s1) := by
          injection hw
        have h3 := readStream_fst_length_le (if 102400 < n then 102400 else n) s2
        simp only [h2, ho] at h3
        exact ⟨le_trans h3 hA, le_trans h3 hB⟩

/-- C10 witness: requesting 200000 bytes from a 2-byte file returns 2
bytes, within both bounds. -/
theorem readString_limit_witness :
    readStringM 2 200000 (openState [65, 66] false) = some [65, 66] ∧
    ([65, 66] : List Nat).length ≤ 102400 ∧ ([65, 66] : List Nat).length ≤ 200000 := by
  have h : readStringM 2 200000 (openState [65, 66] false) = some [65, 66] := by decide
  exact ⟨h, readString_limit 2 200000 (openState [65, 66] false) [65, 66] h⟩

/-! Facts about the carriage-return skip counter. -/

theorem skipCRs_drop_self (l : List Nat) : skipCRs (l.drop (skipCRs l)) = 0 := by
  induction l with
  | nil => rfl
  | cons b rest ih =>
    by_cases hb : b = 13
    · simp [skipCRs, hb, ih]
    · simp [skipCRs, hb]

theorem skipCRs_drop_add (l : List Nat) (k : Nat) :
    skipCRs (l.drop (k + skipCRs (l.drop k))) = 0 := by
  have h := skipCRs_drop_self (l.drop k)
  rw [List.drop_drop] at h
  exact h

/-! The name returned by the directory read loop is the first entry that
is not a "." or ".." pseudo entry. -/

theorem readDirLoop_fst (cur : DirEntry) (rest : List DirEntry) :
    (readDirLoop cur rest).1 =
      (match (cur :: rest).find? (fun e => !isPseudo e) with
       | some e => e.name
       | none => "") := by
  induction rest generalizing cur with
  | nil =>
    by_cases hp : isPseudo cur = true
    · simp [readDirLoop, List.find?_cons, hp]
    · simp [readDirLoop, List.find?_cons, hp]
  | cons e rest2 ih =>
    by_cases hp : isPseudo cur = true
    · simp [readDirLoop, List.find?_cons, hp, ih e]
    · simp [readDirLoop, List.find?_cons, hp]

/-- C8.  A directory read returns the empty sentinel (leaving the state
alone) once the exhausted flag is set; otherwise it returns the first
staged entry that is not one of the "." / ".." pseudo entries; and when
the staged entry is acceptable but advancing hits ERROR_NO_MORE_FILES,
the staged name is still returned and the exhausted flag only takes
effect from the next call. -/
theorem readDirectory_spec (d : WinDirData) :
    (d.fFindSucceeded = false → readDirectory d = ("", d)) ∧
    (d.fFindSucceeded = true →
      (readDirectory d).1 =
        (match (d.lastFind :: d.pending).find? (fun e => !isPseudo e) with
         | some e => e.name
         | none => "") ∧
      (d.pending = [] → isPseudo d.lastFind = false →
        (readDirectory d).1 = d.lastFind.name ∧
        (readDirectory d).2.fFindSucceeded = false)) := by
  refine ⟨fun h => by simp [readDirectory, h], fun h => ⟨?_, fun hp hnp => ?_⟩⟩
  · rw [readDirectory, if_neg (by simp [h])]
    exact readDirLoop_fst d.lastFind d.pending
  · rw [readDirectory, if_neg (by simp [h])]
    rw [hp]
    simp [readDirLoop, hnp]





/-- C8 witness: the pseudo entry "." is skipped and "a" returned; a last
staged real entry is returned even though advancing fails, with the
exhausted flag set for the next call only. -/
theorem readDirectory_spec_witness :
    (readDirectory dirExample).1 = "a" ∧
    ((readDirectory dirExample2).1 = "b" ∧
      (readDirectory dirExample2).2.fFindSucceeded = false) := by
  refine ⟨?_, ((readDirectory_spec dirExample2).2 rfl).2 rfl rfl⟩
  have h := ((readDirectory_spec dirExample).2 rfl).1
  rw [h]
  rfl



theorem isAvailN_returnShape (probeDone : Bool) :
    ∀ fuel s b s1, isAvailN probeDone fuel s = some (b, s1) → returnShape probeDone s1 := by
  intro fuel
  induction fuel with
  | zero => intro s b s1 h; cases h
  | succ m ih =>
    intro s b s1 h
    simp only [isAvailN] at h
    by_cases hg : s.currentInBuffer < s.currentPtr ∨ s.endOfStream = true
    · rw [if_pos hg] at h
      obtain ⟨hb, hs⟩ : true = b ∧ s = s1 := by simpa using h
      exact Or.inl (hs ▸ hg)
    · rw [if_neg hg] at h
      push_neg at hg
      obtain ⟨hg1, hg2⟩ := hg
      have hg2f : s.endOfStream = false := by
        revert hg2; cases s.endOfStream <;> simp
      by_cases hpd : probeDone = false
      · rw [if_pos hpd] at h
        obtain ⟨hb, hs⟩ : false = b ∧ s = s1 := by simpa using h
        exact Or.inr (Or.inl ⟨hpd, hs ▸ hg1, hs ▸ hg2f⟩)
      · rw [if_neg hpd] at h
        by_cases hlt : s.currentPtr +
            (if s.isText = true then
              skipCRs ((s.buffer.take s.buffer.length).drop s.currentPtr) else 0) <
            s.buffer.length
        · rw [if_pos hlt] at h
          obtain ⟨hb, hs⟩ :
              true = b ∧
              ({ s with overlappedPos := s.overlappedPos + s.buffer.length,
                        currentInBuffer := s.buffer.length,
                        currentPtr := s.currentPtr +
                          (if s.isText = true then
                            skipCRs ((s.buffer.take s.buffer.length).drop s.currentPtr)
                          else 0) } : WinInStream) = s1 := by
            simpa using h
          subst hs
          refine Or.inr (Or.inr ⟨by revert hpd; cases probeDone <;> simp,
            by simpa using hlt, by simp, by simpa using hg2f, fun ht => ?_⟩)
          simp only [List.take_length]
          rw [if_pos ht]
          exact skipCRs_drop_add s.buffer s.currentPtr
        · rw [if_neg hlt] at h
          exact ih _ b s1 h

/-- C6.  Two successive `isAvailable` calls with no intervening read and
no change in the completion status of the outstanding operation leave
`currentInBuffer` and `currentPtr` with the same values after the second
call as after the first: the second call returns with the buffer
counters of the first call's result state. -/
theorem isAvailable_idempotent (probeDone : Bool) (f1 f2 : Nat) (s : WinInStream)
    (b1 : Bool) (s1 : WinInStream)
    (h1 : isAvailN probeDone f1 s = some (b1, s1)) (hf : 1 ≤ f2) :
    ∃ b2 s2, isAvailN probeDone f2 s1 = some (b2, s2) ∧
      s2.currentInBuffer = s1.currentInBuffer ∧ s2.currentPtr = s1.currentPtr := by
  obtain ⟨m, rfl⟩ : ∃ m, f2 = m + 1 := ⟨f2 - 1, by omega⟩
  have hs := isAvailN_returnShape probeDone f1 s b1 s1 h1
  rcases hs with hg | ⟨hpd, hng, hne⟩ | ⟨hpd, hlt, hfb, hne, htext⟩
  · refine ⟨true, s1, ?_, rfl, rfl⟩
    simp only [isAvailN]
    rw [if_pos hg]
  · refine ⟨false, s1, ?_, rfl, rfl⟩
    simp only [isAvailN]
    rw [if_neg (by push_neg; exact ⟨by omega, by simp [hne]⟩), if_pos hpd]
  · have hsk : (if s1.isText = true then
        skipCRs ((s1.buffer.take s1.buffer.length).drop s1.currentPtr) else 0) = 0 := by
      by_cases ht : s1.isText = true
      · rw [if_pos ht, List.take_length]
        have h2 := htext ht
        rwa [hfb, List.take_length] at h2
      · rw [if_neg ht]
    refine ⟨true,
      { s1 with overlappedPos := s1.overlappedPos + s1.buffer.length,
                currentInBuffer := s1.buffer.length }, ?_, ?_, ?_⟩
    · simp only [isAvailN]
      rw [if_neg (by push_neg; exact ⟨by omega, by simp [hne]⟩), if_neg (by simp [hpd])]
      rw [hsk]
      rw [if_pos (by simpa using hfb ▸ hlt)]
      simp
    · simp [hfb]
    · simp



/-- C6 witness: a first `isAvailable` call on an end-of-stream state
returns, and a second call preserves the buffer counters. -/
theorem isAvailable_idempotent_witness :
    ∃ b2 s2, isAvailN true 1 eosState = some (b2, s2) ∧
      s2.currentInBuffer = eosState.currentInBuffer ∧
      s2.currentPtr = eosState.currentPtr := by
  exact isAvailable_idempotent true 1 1 eosState true eosState (by decide) (by decide)

/-! Facts about text normalization and the copy loop output. -/

theorem normalize_cons_cr (l : List Nat) :
    normalizeBytes true (13 :: l) = normalizeBytes true l := by
  simp [normalizeBytes]

theorem normalize_cons_ne (it : Bool) (b : Nat) (l : List Nat)
    (hb : ¬(it = true ∧ b = 13)) :
    normalizeBytes it (b :: l) = b :: normalizeBytes it l := by
  cases it
  · rfl
  · have hb13 : b ≠ 13 := fun h => hb ⟨rfl, h⟩
    simp [normalizeBytes, hb13]

theorem normalize_take_pref (it : Bool) (l : List Nat) (k : Nat) :
    normalizeBytes it (l.take k) ++ normalizeBytes it (l.drop k) = normalizeBytes it l := by
  cases it
  · simp [normalizeBytes]
  · simp [normalizeBytes, ← List.filter_append]

theorem copyLoop_fst_eq (it : Bool) (l : List Nat) : ∀ n,
    (copyLoop it l n).1 = normalizeBytes it (l.take (copyLoop it l n).2) := by
  induction l with
  | nil =>
    intro n
    cases it <;> simp [copyLoop, normalizeBytes]
  | cons b rest ih =>
    intro n
    by_cases hn : n = 0
    · subst hn
      cases it <;> simp [copyLoop, normalizeBytes]
    · by_cases hb : it = true ∧ b = 13
      · obtain ⟨hi, hb13⟩ := hb
        subst hi
        subst hb13
        simp only [copyLoop, if_neg hn, and_self, eq_self_iff_true, if_true]
        rw [List.take_succ_cons, normalize_cons_cr]
        exact ih n
      · simp only [copyLoop, if_neg hn, if_neg hb]
        rw [List.take_succ_cons, normalize_cons_ne it b _ hb]
        rw [ih (n - 1)]

theorem copyLoop_fst_pref (it : Bool) (l : List Nat) (n : Nat) :
    ∃ t, (copyLoop it l n).1 ++ t = normalizeBytes it l := by
  refine ⟨normalizeBytes it (l.drop (copyLoop it l n).2), ?_⟩
  rw [copyLoop_fst_eq]
  exact normalize_take_pref it l (copyLoop it l n).2

theorem copyLoop_binary_eq (l : List Nat) : ∀ n,
    copyLoop false l n = (l.take n, min n l.length) := by
  induction l with
  | nil => intro n; simp [copyLoop]
  | cons b rest ih =>
    intro n
    cases n with
    | zero => simp [copyLoop]
    | succ n2 =>
      simp only [copyLoop, if_neg (Nat.succ_ne_zero n2), if_neg (by simp :
        ¬(false = true ∧ b = 13)), Nat.succ_sub_one]
      rw [ih n2]
      simp [List.take_succ_cons, Nat.succ_min_succ]

theorem normalize_drop_skip_take (X : List Nat) : ∀ m,
    normalizeBytes true (X.drop (skipCRs (X.take m))) = normalizeBytes true X := by
  induction X with
  | nil => intro m; simp [skipCRs]
  | cons b rest ih =>
    intro m
    cases m with
    | zero => simp [skipCRs]
    | succ m2 =>
      by_cases hb : b = 13
      · subst hb
        rw [List.take_succ_cons]
        rw [show skipCRs (13 :: rest.take m2) = skipCRs (rest.take m2) + 1 from by
          simp [skipCRs]]
        rw [List.drop_succ_cons, normalize_cons_cr]
        exact ih m2
      · rw [List.take_succ_cons]
        rw [show skipCRs (b :: rest.take m2) = 0 from by simp [skipCRs, hb]]
        rfl

/-- A read from a state whose buffer is the file bytes from some offset,
fully observed, with the cursor past the leading carriage-return run,
returns a prefix of the normalized bytes from that offset. -/
theorem readStream_fresh_pref (it : Bool) (n : Nat) (X : List Nat) (bs : Nat)
    (s1 : WinInStream)
    (hb : s1.buffer = X.take bs)
    (hf : s1.currentInBuffer = s1.buffer.length)
    (hc : s1.currentPtr = (if it = true then skipCRs (X.take bs) else 0))
    (he : s1.endOfStream = false)
    (hit : s1.isText = it) :
    ∃ t, (readStream n s1).1 ++ t = normalizeBytes it X := by
  rw [readStream_fst n s1 he, hit, hf, List.take_length]
  obtain ⟨t1, ht1⟩ := copyLoop_fst_pref it (s1.buffer.drop s1.currentPtr) n
  have hdt : s1.buffer.drop s1.currentPtr =
      (X.drop s1.currentPtr).take (bs - s1.currentPtr) := by
    rw [hb, List.drop_take]
  have ht2 := normalize_take_pref it (X.drop s1.currentPtr) (bs - s1.currentPtr)
  have ht3 : normalizeBytes it (X.drop s1.currentPtr) = normalizeBytes it X := by
    by_cases hi : it = true
    · subst hi
      rw [hc, if_pos rfl]
      exact normalize_drop_skip_take X bs
    · have hif : it = false := by revert hi; cases it <;> simp
      subst hif
      rw [hc, if_neg (by simp)]
      rfl
  refine ⟨t1 ++ normalizeBytes it ((X.drop s1.currentPtr).drop (bs - s1.currentPtr)), ?_⟩
  rw [← List.append_assoc, ht1, hdt, ht2, ht3]



theorem setPos_safe (s : WinInStream) (p : Nat) :
    SafeSt s.content s.isText s.buffSize p (setPos p s) := by
  rw [setPos, beginReading]
  split
  · exact ⟨rfl, rfl, rfl, Or.inl rfl⟩
  · exact ⟨rfl, rfl, rfl,
      Or.inr ⟨p, Nat.le_refl p, Nat.le_refl p, rfl, Or.inl ⟨rfl, rfl⟩⟩⟩

/-- Issuing the next raw read from a state whose counters are already
saturated (or whose position is at or past the end) lands back in the
safe set. -/
theorem beginReading_safe (content : List Nat) (it : Bool) (bs p : Nat) (sB : WinInStream)
    (hcont : sB.content = content) (hi : sB.isText = it) (hbs : sB.buffSize = bs)
    (hq : p ≤ sB.overlappedPos)
    (hc : min bs (content.length - sB.overlappedPos) ≤ sB.currentPtr) :
    SafeSt content it bs p (beginReading sB) := by
  rw [beginReading]
  split
  · exact ⟨hcont, hi, hbs, Or.inl rfl⟩
  · refine ⟨hcont, hi, hbs,
      Or.inr ⟨sB.overlappedPos, hq, Nat.le_refl _, ?_, Or.inr ?_⟩⟩
    · simp only [hcont, hbs]
    · simp only [List.length_take, List.length_drop, hcont, hbs]
      exact hc

theorem isAvailN_safe_pref (content : List Nat) (it : Bool) (bs p n : Nat) :
    ∀ fuel s, SafeSt content it bs p s → ∀ b s1,
      isAvailN true fuel s = some (b, s1) →
      ∃ t, (readStream n s1).1 ++ t = normalizeBytes it (content.drop p) := by
  intro fuel
  induction fuel with
  | zero => intro s hS b s1 h; cases h
  | succ m ih =>
    intro s hS b s1 h
    obtain ⟨hcont, hi, hbs, hrest⟩ := hS
    simp only [isAvailN] at h
    by_cases hg : s.currentInBuffer < s.currentPtr ∨ s.endOfStream = true
    · rw [if_pos hg] at h
      obtain ⟨hb2, hs⟩ : true = b ∧ s = s1 := by simpa using h
      by_cases heos : s.endOfStream = true
      · exact ⟨normalizeBytes it (content.drop p), by simp [← hs, readStream, heos]⟩
      · have hef : s.endOfStream = false := by revert heos; cases s.endOfStream <;> simp
        have hflt : s.currentInBuffer < s.currentPtr := by
          rcases hg with h1 | h1
          · exact h1
          · exact absurd h1 heos
        rcases hrest with heos2 | ⟨q, hpq, hqpos, hbuf, hsub⟩
        · exact absurd heos2 heos
        rcases hsub with ⟨hc0, hnorm⟩ | hsat
        · omega
        · refine ⟨normalizeBytes it (content.drop p), ?_⟩
          rw [← hs, readStream_fst n s hef]
          have hunread : (s.buffer.take s.currentInBuffer).drop s.currentPtr = [] := by
            apply List.drop_eq_nil_of_le
            have := List.length_take_le' s.currentInBuffer s.buffer
            omega
          rw [hunread]
          simp [copyLoop]
    · rw [if_neg hg] at h
      push_neg at hg
      obtain ⟨hg1, hg2⟩ := hg
      have hef : s.endOfStream = false := by revert hg2; cases s.endOfStream <;> simp
      rw [if_neg (by simp)] at h
      rcases hrest with heos2 | ⟨q, hpq, hqpos, hbuf, hsub⟩
      · exact absurd heos2 (by simp [hef])
      by_cases hlt : s.currentPtr +
          (if s.isText = true then
            skipCRs ((s.buffer.take s.buffer.length).drop s.currentPtr) else 0) <
          s.buffer.length
      · rw [if_pos hlt] at h
        obtain ⟨hb2, hs⟩ :
            true = b ∧
            ({ s with overlappedPos := s.overlappedPos + s.buffer.length,
                      currentInBuffer := s.buffer.length,
                      currentPtr := s.currentPtr +
                        (if s.isText = true then
                          skipCRs ((s.buffer.take s.buffer.length).drop s.currentPtr)
                        else 0) } : WinInStream) = s1 := by
          simpa using h
        rcases hsub with ⟨hc0, hnorm⟩ | hsat
        · have hbb : s1.buffer = (content.drop q).take bs := by
            rw [← hs]; exact hbuf
          have hff : s1.currentInBuffer = s1.buffer.length := by
            rw [← hs]
          have hcc : s1.currentPtr = (if it = true then skipCRs ((content.drop q).take bs)
              else 0) := by
            rw [← hs]
            simp only [hc0, hi, List.take_length, List.drop_zero, hbuf, Nat.zero_add]
          have hee : s1.endOfStream = false := by
            rw [← hs]; exact hef
          have hii : s1.isText = it := by
            rw [← hs]; exact hi
          obtain ⟨t, ht⟩ := readStream_fresh_pref it n (content.drop q) bs s1 hbb hff hcc hee hii
          exact ⟨t, ht.trans hnorm⟩
        · omega
      · rw [if_neg hlt] at h
        apply ih _ _ b s1 h
        apply beginReading_safe
        · exact hcont
        · exact hi
        · exact hbs
        · show p ≤ s.overlappedPos + s.buffer.length
          omega
        · show min bs (content.length - (s.overlappedPos + s.buffer.length)) ≤
            s.currentPtr + (if s.isText = true then
              skipCRs ((s.buffer.take s.buffer.length).drop s.currentPtr) else 0)
          have hBL : s.buffer.length = min bs (content.length - q) := by
            rw [hbuf]
            simp [List.length_take, List.length_drop]
          omega

/-- C5.  After `setPos(p)` the logical position reads back as exactly `p`
(`getPos` accounts for the emptied buffer); whenever the availability
wait after `setPos(p)` returns, the next read delivers a prefix of the
(text-normalized) file content from offset `p`; and on a binary stream
positioned strictly inside the file the first probe succeeds and the
read returns exactly the bytes at offset `p`, limited by the buffer
size and the requested length. -/
theorem setPos_getPos_read_spec (s : WinInStream) (p n : Nat) :
    getPos (setPos p s) = p ∧
    (∀ fuel b s1, isAvailN true fuel (setPos p s) = some (b, s1) →
      ∃ t, (readStream n s1).1 ++ t = normalizeBytes s.isText (s.content.drop p)) ∧
    (s.isText = false → p < s.content.length → 0 < s.buffSize →
      ∃ s1, isAvailN true 1 (setPos p s) = some (true, s1) ∧
        (readStream n s1).1 = ((s.content.drop p).take s.buffSize).take n) := by
  refine ⟨?_, ?_, ?_⟩
  · rw [setPos, beginReading]
    split <;> simp [getPos]
  · intro fuel b s1 h
    exact isAvailN_safe_pref s.content s.isText s.buffSize p n fuel (setPos p s)
      (setPos_safe s p) b s1 h
  · intro hbin hp hbs0
    have hset : setPos p s =
        { s with overlappedPos := p, currentInBuffer := 0, currentPtr := 0,
                 endOfStream := false,
                 buffer := (s.content.drop p).take s.buffSize } := by
      rw [setPos, beginReading]
      split
      · rename_i h2
        exact absurd (show s.content.length ≤ p from h2) (by omega)
      · rfl
    have hBpos : 0 < ((s.content.drop p).take s.buffSize).length := by
      simp only [List.length_take, List.length_drop]
      omega
    obtain ⟨s1, h1, hbuf1, hfil1, hptr1, heos1, hit1⟩ :
        ∃ s1, isAvailN true 1 (setPos p s) = some (true, s1) ∧
          s1.buffer = (s.content.drop p).take s.buffSize ∧
          s1.currentInBuffer = s1.buffer.length ∧
          s1.currentPtr = 0 ∧ s1.endOfStream = false ∧ s1.isText = false := by
      refine ⟨{ s with overlappedPos := p + ((s.content.drop p).take s.buffSize).length, currentInBuffer := ((s.content.drop p).take s.buffSize).length, currentPtr := 0, endOfStream := false, buffer := (s.content.drop p).take s.buffSize }, ?_, rfl, ?_, rfl, rfl, hbin⟩
      · rw [hset]
        simp [isAvailN, hbin, hBpos]
        exact ⟨hbs0, hp⟩
      · simp
    refine ⟨s1, h1, ?_⟩
    rw [readStream_fst n s1 heos1, hit1, hfil1, List.take_length, hptr1, List.drop_zero,
      hbuf1, copyLoop_binary_eq]

/-- C5 witness: on the binary file "ABC", seek to offset 1, read back
position 1, and the next read of 5 bytes returns "BC". -/
theorem setPos_getPos_read_spec_witness :
    getPos (setPos 1 (openState [65, 66, 67] false)) = 1 ∧
    ∃ s1, isAvailN true 1 (setPos 1 (openState [65, 66, 67] false)) = some (true, s1) ∧
      (readStream 5 s1).1 = [66, 67] := by
  obtain ⟨h1, h2, h3⟩ := setPos_getPos_read_spec (openState [65, 66, 67] false) 1 5
  obtain ⟨s1, hA, hB⟩ := h3 (by decide) (by decide) (by decide)
  refine ⟨h1, s1, hA, ?_⟩
  rw [hB]
  decide

/-! Further facts about the copy loop and the skip counter, used for the
read-sequence result. -/

theorem copyLoop_snd_le (isT : Bool) (l : List Nat) : ∀ n, (copyLoop isT l n).2 ≤ l.length := by
  induction l with
  | nil => intro n; simp [copyLoop]
  | cons b rest ih =>
    intro n
    by_cases hn : n = 0
    · simp [copyLoop, hn]
    · by_cases hb : isT = true ∧ b = 13
      · have h1 := ih n
        simp only [copyLoop, if_neg hn, if_pos hb, List.length_cons]
        omega
      · have h1 := ih (n - 1)
        simp only [copyLoop, if_neg hn, if_neg hb, List.length_cons]
        omega

theorem copyLoop_fst_le_snd (isT : Bool) (l : List Nat) : ∀ n,
    (copyLoop isT l n).1.length ≤ (copyLoop isT l n).2 := by
  induction l with
  | nil => intro n; simp [copyLoop]
  | cons b rest ih =>
    intro n
    by_cases hn : n = 0
    · simp [copyLoop, hn]
    · by_cases hb : isT = true ∧ b = 13
      · have h1 := ih n
        simp only [copyLoop, if_neg hn, if_pos hb]
        omega
      · have h1 := ih (n - 1)
        simp only [copyLoop, if_neg hn, if_neg hb, List.length_cons]
        omega

theorem copyLoop_full_or_end (isT : Bool) (l : List Nat) : ∀ n,
    (copyLoop isT l n).1.length = n ∨ (copyLoop isT l n).2 = l.length := by
  induction l with
  | nil => intro n; right; simp [copyLoop]
  | cons b rest ih =>
    intro n
    by_cases hn : n = 0
    · left; simp [copyLoop, hn]
    · by_cases hb : isT = true ∧ b = 13
      · rcases ih n with h1 | h1
        · left; simpa [copyLoop, hn, hb] using h1
        · right; simp only [copyLoop, if_neg hn, if_pos hb, List.length_cons]; omega
      · rcases ih (n - 1) with h1 | h1
        · left
          simp only [copyLoop, if_neg hn, if_neg hb, List.length_cons]
          omega
        · right; simp only [copyLoop, if_neg hn, if_neg hb, List.length_cons]; omega

theorem skipCRs_le (l : List Nat) : skipCRs l ≤ l.length := by
  induction l with
  | nil => simp [skipCRs]
  | cons b rest ih =>
    by_cases hb : b = 13
    · simp only [skipCRs, if_pos hb, List.length_cons]; omega
    · simp [skipCRs, hb]

theorem normalize_take_skipCRs (l : List Nat) :
    normalizeBytes true (l.take (skipCRs l)) = [] := by
  induction l with
  | nil => simp [skipCRs, normalizeBytes]
  | cons b rest ih =>
    by_cases hb : b = 13
    · subst hb
      rw [show skipCRs (13 :: rest) = skipCRs rest + 1 from by simp [skipCRs]]
      rw [List.take_succ_cons, normalize_cons_cr]
      exact ih
    · rw [show skipCRs (b :: rest) = 0 from by simp [skipCRs, hb]]
      simp [normalizeBytes]

theorem normalize_append (it : Bool) (a b : List Nat) :
    normalizeBytes it (a ++ b) = normalizeBytes it a ++ normalizeBytes it b := by
  cases it <;> simp [normalizeBytes]

theorem readStream_eos (n : Nat) (s : WinInStream) (h : s.endOfStream = true) :
    readStream n s = ([], s) := by
  rw [readStream, if_pos h]

theorem isAvailN_doneSt (c : List Nat) (it : Bool) (s : WinInStream)
    (h : DoneSt c it s) : ∀ m, isAvailN true (m + 1) s = some (true, s) := by
  intro m
  simp only [isAvailN]
  rw [if_pos (Or.inr h.2.2)]

theorem isAvailN_activeSt (c : List Nat) (it : Bool) (k : Nat) (s : WinInStream)
    (h : ActiveSt c it k s) : ∃ s1,
      (∀ m, isAvailN true (m + 1) s = some (true, s1)) ∧ ActiveSt c it k s1 := by
  obtain ⟨hc, hi, hb, hf2, hp, he, hpos, hk, hcr⟩ := h
  have hsk : (if s.isText = true then
      skipCRs ((s.buffer.take s.buffer.length).drop s.currentPtr) else 0) = 0 := by
    by_cases ht : s.isText = true
    · rw [if_pos ht, List.take_length, hb, hp]
      exact hcr (by rw [← hi]; exact ht)
    · rw [if_neg ht]
  refine ⟨{ s with overlappedPos := s.overlappedPos + s.buffer.length, currentInBuffer := s.buffer.length }, fun m => ?_, ?_⟩
  · simp only [isAvailN]
    rw [if_neg (by push_neg; exact ⟨by rw [hf2, hp]; omega, by simp [he]⟩)]
    rw [if_neg (by simp)]
    rw [hsk]
    rw [if_pos (show s.currentPtr + 0 < s.buffer.length from by rw [hp, hb]; omega)]
    simp
  · refine ⟨hc, hi, hb, by rw [hb], hp, he, ?_, hk, hcr⟩
    show c.length ≤ s.overlappedPos + s.buffer.length
    omega

theorem readStream_activeSt (c : List Nat) (it : Bool) (k n : Nat) (s : WinInStream)
    (h : ActiveSt c it k s) :
    ∃ k1, k ≤ k1 ∧ k1 ≤ c.length ∧
      (readStream n s).1 = normalizeBytes it ((c.drop k).take (k1 - k)) ∧
      ((ActiveSt c it k1 (readStream n s).2 ∧ (readStream n s).1.length = n ∧ k + n ≤ k1) ∨
       (DoneSt c it (readStream n s).2 ∧ k1 = c.length)) := by
  obtain ⟨hc, hi, hb, hf2, hp, he, hpos, hk, hcr⟩ := h
  have hread : readStream n s =
      (if c.length = k + (copyLoop it (c.drop k) n).2 +
          (if it = true then skipCRs (c.drop (k + (copyLoop it (c.drop k) n).2)) else 0) then
        ((copyLoop it (c.drop k) n).1,
          beginReading { s with currentInBuffer := 0, currentPtr := 0 })
      else
        ((copyLoop it (c.drop k) n).1,
          { s with currentPtr := k + (copyLoop it (c.drop k) n).2 +
              (if it = true then skipCRs (c.drop (k + (copyLoop it (c.drop k) n).2))
               else 0) })) := by
    rw [readStream, if_neg (by simp [he])]
    simp only [hb, hf2, hp, hi, List.take_length]
  have hkc := copyLoop_snd_le it (c.drop k) n
  rw [List.length_drop] at hkc
  have hsk_le : (if it = true then skipCRs (c.drop (k + (copyLoop it (c.drop k) n).2))
      else 0) ≤ c.length - (k + (copyLoop it (c.drop k) n).2) := by
    by_cases ht : it = true
    · rw [if_pos ht]
      have := skipCRs_le (c.drop (k + (copyLoop it (c.drop k) n).2))
      rwa [List.length_drop] at this
    · rw [if_neg ht]; omega
  have hout_le := copyLoop_fst_le_snd it (c.drop k) n
  have hsplice : ∀ j : Nat, j = (copyLoop it (c.drop k) n).2 +
      (if it = true then skipCRs (c.drop (k + (copyLoop it (c.drop k) n).2)) else 0) →
      normalizeBytes it ((c.drop k).take j) = (copyLoop it (c.drop k) n).1 := by
    intro j hj
    rw [hj, List.take_add, normalize_append]
    rw [show (c.drop k).drop (copyLoop it (c.drop k) n).2 =
        c.drop (k + (copyLoop it (c.drop k) n).2) from by rw [List.drop_drop]]
    have hz : normalizeBytes it ((c.drop (k + (copyLoop it (c.drop k) n).2)).take
        (if it = true then skipCRs (c.drop (k + (copyLoop it (c.drop k) n).2)) else 0)) = [] := by
      cases it
      · rfl
      · rw [if_pos rfl]
        exact normalize_take_skipCRs _
    rw [hz, List.append_nil, ← copyLoop_fst_eq]
  by_cases hcond : c.length = k + (copyLoop it (c.drop k) n).2 +
      (if it = true then skipCRs (c.drop (k + (copyLoop it (c.drop k) n).2)) else 0)
  · refine ⟨c.length, by omega, Nat.le_refl _, ?_, Or.inr ⟨?_, rfl⟩⟩
    · rw [hread, if_pos hcond]
      exact (hsplice (c.length - k) (by omega)).symm
    · rw [hread, if_pos hcond]
      show DoneSt c it (beginReading { s with currentInBuffer := 0, currentPtr := 0 })
      rw [beginReading]
      rw [if_pos (show ({ s with currentInBuffer := 0, currentPtr := 0 } :
        WinInStream).content.length ≤ _ from by show s.content.length ≤ s.overlappedPos
                                                rw [hc]; omega)]
      exact ⟨hc, hi, rfl⟩
  · refine ⟨k + (copyLoop it (c.drop k) n).2 +
        (if it = true then skipCRs (c.drop (k + (copyLoop it (c.drop k) n).2)) else 0),
      by omega, by omega, ?_, Or.inl ⟨?_, ?_, ?_⟩⟩
    · rw [hread, if_neg hcond]
      exact (hsplice _ (by omega)).symm
    · rw [hread, if_neg hcond]
      refine ⟨hc, hi, hb, hf2, rfl, he, hpos, by omega, ?_⟩
      intro ht
      rw [show k + (copyLoop it (c.drop k) n).2 +
          (if it = true then skipCRs (c.drop (k + (copyLoop it (c.drop k) n).2)) else 0) =
          (k + (copyLoop it (c.drop k) n).2) +
          skipCRs (c.drop (k + (copyLoop it (c.drop k) n).2)) from by rw [if_pos ht]]
      exact skipCRs_drop_add c (k + (copyLoop it (c.drop k) n).2)
    · rw [hread, if_neg hcond]
      rcases copyLoop_full_or_end it (c.drop k) n with hfull | hend
      · exact hfull
      · exfalso
        rw [List.length_drop] at hend
        have hz2 : (if it = true then skipCRs (c.drop (k + (copyLoop it (c.drop k) n).2))
            else 0) = 0 := by
          have hnil : c.drop (k + (copyLoop it (c.drop k) n).2) = [] := by
            apply List.drop_eq_nil_of_le
            omega
          rw [hnil]
          cases it <;> simp [skipCRs]
        omega
    · have hlen := copyLoop_fst_le_snd it (c.drop k) n
      rcases copyLoop_full_or_end it (c.drop k) n with hfull | hend
      · omega
      · exfalso
        rw [List.length_drop] at hend
        have hz2 : (if it = true then skipCRs (c.drop (k + (copyLoop it (c.drop k) n).2))
            else 0) = 0 := by
          have hnil : c.drop (k + (copyLoop it (c.drop k) n).2) = [] := by
            apply List.drop_eq_nil_of_le
            omega
          rw [hnil]
          cases it <;> simp [skipCRs]
        omega

theorem runReads_doneSt (c : List Nat) (it : Bool) :
    ∀ (ns : List Nat) (s : WinInStream) (fuel : Nat), DoneSt c it s → 1 ≤ fuel →
      runReads fuel s ns = some [] := by
  intro ns
  induction ns with
  | nil => intro s fuel h hf; rfl
  | cons nn rest ih =>
    intro s fuel h hf
    obtain ⟨m, rfl⟩ : ∃ m, fuel = m + 1 := ⟨fuel - 1, by omega⟩
    simp only [runReads, waitThenRead, isAvailN_doneSt c it s h m,
      readStream_eos nn s h.2.2]
    rw [ih s (m + 1) h (by omega)]
    rfl

theorem runReads_preSt (c : List Nat) (it : Bool) :
    ∀ (ns : List Nat) (k : Nat) (s : WinInStream) (fuel : Nat),
      PreSt c it k s → c.length ≤ k + ns.sum → 2 ≤ fuel →
      runReads fuel s ns = some (normalizeBytes it (c.drop k)) := by
  intro ns
  induction ns with
  | nil =>
    intro k s fuel hP hsum hf
    simp only [List.sum_nil, Nat.add_zero] at hsum
    simp only [runReads]
    rw [List.drop_eq_nil_of_le hsum]
    cases it <;> simp [normalizeBytes]
  | cons nn rest ih =>
    intro k s fuel hP hsum hf
    obtain ⟨s1, hav, hcase⟩ := hP
    obtain ⟨m, rfl⟩ : ∃ m, fuel = m + 2 := ⟨fuel - 2, by omega⟩
    simp only [runReads, waitThenRead, hav m]
    simp only [List.sum_cons] at hsum
    rcases hcase with hact | ⟨hdone, hkL⟩
    · obtain ⟨k1, hk1a, hk1b, hout, hcase2⟩ := readStream_activeSt c it k nn s1 hact
      rcases hcase2 with ⟨hact2, hlen, hkn⟩ | ⟨hdone2, hkL2⟩
      · have hP2 : PreSt c it k1 (readStream nn s1).2 := by
          obtain ⟨s2, hav2, ha2⟩ := isAvailN_activeSt c it k1 _ hact2
          exact ⟨s2, fun m2 => hav2 (m2 + 1), Or.inl ha2⟩
        have hdd : c.drop k1 = (c.drop k).drop (k1 - k) := by
          rw [List.drop_drop]
          congr 1
          omega
        rw [ih k1 (readStream nn s1).2 (m + 2) hP2 (by omega) (by omega), hout, hdd]
        show some (normalizeBytes it ((c.drop k).take (k1 - k)) ++
          normalizeBytes it ((c.drop k).drop (k1 - k))) = some (normalizeBytes it (c.drop k))
        rw [normalize_take_pref]
      · rw [runReads_doneSt c it rest (readStream nn s1).2 (m + 2) hdone2 (by omega)]
        show some ((readStream nn s1).1 ++ []) = some (normalizeBytes it (c.drop k))
        rw [hout, hkL2]
        rw [List.take_of_length_le (by rw [List.length_drop])]
        simp
    · rw [readStream_eos nn s1 hdone.2.2]
      show (match runReads (m + 2) s1 rest with
        | none => none
        | some tail => some (([] : List Nat) ++ tail)) = some (normalizeBytes it (c.drop k))
      rw [runReads_doneSt c it rest s1 (m + 2) hdone (by omega)]
      show some (([] : List Nat) ++ []) = some (normalizeBytes it (c.drop k))
      rw [List.drop_eq_nil_of_le hkL]
      cases it <;> simp [normalizeBytes]

theorem preSt_openState (c : List Nat) (it : Bool) (hL : c.length ≤ 4096)
    (hL0 : 0 < c.length) :
    PreSt c it (if it = true then skipCRs c else 0) (openState c it) := by
  have hopen : openState c it =
      { content := c, buffer := c, currentInBuffer := 0, currentPtr := 0,
        overlappedPos := 0, buffSize := 4096, endOfStream := false, isText := it } := by
    rw [openState, beginReading]
    split
    · rename_i h2
      exact absurd (show c.length ≤ 0 from h2) (by omega)
    · simp only [WinInStream.mk.injEq, and_true, true_and]
      rw [List.drop_zero]
      exact List.take_of_length_le hL
  have hKle := skipCRs_le c
  by_cases hKlt : (if it = true then skipCRs c else 0) < c.length
  · refine ⟨{ content := c, buffer := c, currentInBuffer := c.length, currentPtr := 0 + (if it = true then skipCRs c else 0), overlappedPos := 0 + c.length, buffSize := 4096, endOfStream := false, isText := it }, fun m => ?_, Or.inl ?_⟩
    · rw [hopen]
      simp only [isAvailN]
      rw [if_neg (by simp), if_neg (by simp)]
      rw [List.take_length, List.drop_zero]
      rw [if_pos (show 0 + (if it = true then skipCRs c else 0) < c.length from by omega)]
    · refine ⟨rfl, rfl, rfl, rfl, by simp, rfl, by simp, hKlt, ?_⟩
      intro ht
      rw [if_pos ht]
      exact skipCRs_drop_self c
  · have hit : it = true := by
      by_cases ht : it = true
      · exact ht
      · exfalso
        rw [if_neg ht] at hKlt
        omega
    rw [if_pos hit] at hKlt ⊢
    refine ⟨{ content := c, buffer := c, currentInBuffer := c.length, currentPtr := 0 + skipCRs c, overlappedPos := 0 + c.length, buffSize := 4096, endOfStream := true, isText := it }, fun m => ?_, Or.inr ⟨⟨rfl, rfl, rfl⟩, by omega⟩⟩
    rw [hopen]
    simp only [isAvailN]
    rw [if_neg (by simp), if_neg (by simp)]
    rw [List.take_length, List.drop_zero]
    rw [if_pos hit]
    rw [if_neg (show ¬(0 + skipCRs c < c.length) from by omega)]
    rw [beginReading]
    rw [if_pos (show c.length ≤ 0 + c.length from by omega)]
    simp only [isAvailN]
    rw [if_pos (show c.length < 0 + skipCRs c ∨ True from Or.inr trivial)]

/-- C4 (amended).  For every byte content of at most the 4096-byte
buffer capacity and every sequence of read(n) calls whose total
requested length equals the bytes available before end of file, the
concatenation of the returned byte strings equals the original content
with, in text mode, every carriage-return byte removed.  (For longer
contents a single read call cannot span the buffer boundary, so the
unrestricted claim fails.) -/
theorem runReads_concat_within_buffer (c : List Nat) (it : Bool) (ns : List Nat) (fuel : Nat)
    (hL : c.length ≤ 4096) (hsum : ns.sum = c.length) (hf : 2 ≤ fuel) :
    runReads fuel (openState c it) ns = some (normalizeBytes it c) := by
  by_cases hL0 : c.length = 0
  · have hc : c = [] := List.eq_nil_of_length_eq_zero hL0
    subst hc
    have hdone : DoneSt [] it (openState [] it) := by
      refine ⟨?_, ?_, ?_⟩ <;> simp [openState, beginReading]
    rw [runReads_doneSt [] it ns (openState [] it) fuel hdone (by omega)]
    cases it <;> simp [normalizeBytes]
  · have hP := preSt_openState c it hL (by omega)
    rw [runReads_preSt c it ns (if it = true then skipCRs c else 0) (openState c it) fuel hP
      (by omega) hf]
    congr 1
    by_cases ht : it = true
    · rw [if_pos ht, ht]
      have h2 := normalize_drop_skip_take c c.length
      rwa [List.take_length] at h2
    · rw [if_neg ht, List.drop_zero]

/-- On a freshly opened binary stream a single read request returns the
first `n` bytes of the first buffer fill (which holds the first 4096
bytes of the file): the copy never crosses the buffer boundary. -/
theorem openState_binary_first_read (c : List Nat) (hL0 : 0 < c.length) (n : Nat) :
    runReads 2 (openState c false) [n] = some ((c.take 4096).take n) := by
  have hopen : openState c false =
      { content := c, buffer := c.take 4096, currentInBuffer := 0, currentPtr := 0, overlappedPos := 0, buffSize := 4096, endOfStream := false, isText := false } := by
    rw [openState, beginReading]
    split
    · rename_i h2
      exact absurd (show c.length ≤ 0 from h2) (by omega)
    · simp only [WinInStream.mk.injEq, and_true, true_and]
      rw [List.drop_zero]
  have hlen : 0 < (c.take 4096).length := by
    simp only [List.length_take]
    omega
  have hav : isAvailN true 2 (openState c false) =
      some (true, { content := c, buffer := c.take 4096, currentInBuffer := (c.take 4096).length, currentPtr := 0, overlappedPos := 0 + (c.take 4096).length, buffSize := 4096, endOfStream := false, isText := false }) := by
    rw [hopen]
    simp [isAvailN, hlen]
    intro hc
    rw [hc] at hL0
    simp at hL0
  have hfst : (readStream n ({ content := c, buffer := c.take 4096, currentInBuffer := (c.take 4096).length, currentPtr := 0, overlappedPos := 0 + (c.take 4096).length, buffSize := 4096, endOfStream := false, isText := false } : WinInStream)).1 = (c.take 4096).take n := by
    rw [readStream_fst n _ rfl]
    show (copyLoop false (((c.take 4096).take (c.take 4096).length).drop 0) n).1 =
      (c.take 4096).take n
    rw [List.drop_zero, List.take_length, copyLoop_binary_eq]
  simp only [runReads, waitThenRead, hav]
  rw [hfst]
  simp

/-- C4 counterexample.  A 4097-byte binary file read by the single call
read(4097): the total requested equals the bytes available, but the copy
stops at the 4096-byte buffer boundary, so only 4096 bytes come back. -/
theorem runReads_buffer_boundary_loses_bytes :
    runReads 2 (openState (List.replicate 4097 65) false) [4097] =
      some (List.replicate 4096 65) ∧
    List.replicate 4096 65 ≠ List.replicate 4097 65 := by
  constructor
  · rw [openState_binary_first_read (List.replicate 4097 65)
      (by simp only [List.length_replicate]; omega) 4097]
    rw [List.take_replicate, Nat.min_eq_left (by omega), List.take_replicate,
      Nat.min_eq_right (by omega)]
  · intro h
    have h2 := congrArg List.length h
    simp only [List.length_replicate] at h2
    omega

/-- C4 witness: the 4-byte text file "A CR LF B" read by the single call
read(4) returns the content with the carriage return removed. -/
theorem runReads_concat_within_buffer_witness :
    runReads 2 (openState [65, 13, 10, 66] true) [4] = some [65, 10, 66] := by
  have h := runReads_concat_within_buffer [65, 13, 10, 66] true [4] 2 (by decide) (by decide)
    (by decide)
  rw [h]
  rfl
